import Mathlib

/-!
Verification of the MiniC compiler core: a shallow embedding of the IR
optimizer (`src/optimization/optimizer.cpp`), the linear-scan register
allocator (`src/backend/register_allocation.cpp`) and the stack-frame
computation of the code emitter (`src/backend/codegen.cpp`), together
with theorems checking the design specification against the code.

The IR is LLVM-based: values are identity-compared references, constant
integers are interned (two constants are the same reference iff they have
the same type and value), instructions live in basic blocks inside
functions. The embedding models an instruction as a record with a stable
identity (`id`), blocks as instruction lists and functions as block
lists; maps keyed on `LLVMValueRef`/`LLVMBasicBlockRef` become
association lists keyed on instruction ids / block indices, and
`unordered_set` becomes `Finset Nat`. Mutation (`LLVMReplaceAllUsesWith`,
`LLVMInstructionEraseFromParent`) becomes explicit state passing of the
function value.
-/

namespace MiniC

/-- Integer comparison predicates of `icmp` (the six signed ones MiniC uses). -/
inductive Pred where
  | eq | ne | slt | sle | sgt | sge
deriving DecidableEq, Repr

/-- Instruction opcodes of the MiniC IR. The `icmp` predicate is *not* part
of the opcode (it is a separate attribute, as in `LLVMGetInstructionOpcode`
vs `LLVMGetICmpPredicate`). -/
inductive Opcode where
  | alloca | load | store | add | sub | mul | icmp | br | ret | call
deriving DecidableEq, Repr

/-- An operand reference. Identity comparison of `LLVMValueRef`s becomes
structural equality here: instruction references compare by id, and
constants compare by (type, value) because LLVM interns constant integers
(same type and value iff same reference, which also makes the separate
`LLVMTypeOf` comparison in `isSameOperands` redundant for equal
references). -/
inductive Operand where
  | instr (id : Nat)
  | const (ty : Nat) (v : Int)
  | param (n : Nat)
  | label (b : Nat)
  | funcref (name : Nat)
deriving DecidableEq, Repr

/-- An IR instruction: stable identity, opcode, icmp predicate (meaningful
only when `opcode = icmp`), operand list, and whether a `call` has void
result type. -/
structure Instr where
  id : Nat
  opcode : Opcode
  pred : Pred := .eq
  operands : List Operand
  retVoid : Bool := false
deriving DecidableEq, Repr

/-- A basic block is an ordered list of instructions. -/
abbrev Block := List Instr

/-- A function is an ordered list of basic blocks; block `0` is the entry.
`Operand.label j` refers to the block at index `j`. -/
abbrev Func := List Block

/-- All instructions of a function in block order (iteration order of the
nested `LLVMGetFirstBasicBlock`/`LLVMGetFirstInstruction` loops). -/
def allInstrs (f : Func) : List Instr := f.flatten

/-- Does instruction `i` reference the value with id `v` among its operands? -/
def usesVal (i : Instr) (v : Nat) : Bool := i.operands.any (· == Operand.instr v)

/-- Embedding of `hasUses`: the value `v` has uses iff some instruction in
the function references it (`LLVMGetFirstUse` is derived by scanning
operands; MiniC functions never reference another function's
instructions). -/
def hasUses (f : Func) (v : Nat) : Bool := (allInstrs f).any (usesVal · v)

/-- Replace-all-uses-with on a single operand. -/
def rauwOp (old : Nat) (new : Operand) (o : Operand) : Operand :=
  if o == .instr old then new else o

/-- Replace-all-uses-with on a single instruction. -/
def rauwInstr (old : Nat) (new : Operand) (i : Instr) : Instr :=
  { i with operands := i.operands.map (rauwOp old new) }

/-- Embedding of `LLVMReplaceAllUsesWith inst new`: every operand reference
to the value `old` anywhere in the function is redirected to `new`. -/
def rauw (f : Func) (old : Nat) (new : Operand) : Func :=
  f.map (·.map (rauwInstr old new))

/-- Look up the current version of an instruction in a block by identity. -/
def findInstrInBlock (b : Block) (v : Nat) : Option Instr :=
  b.find? (fun i => i.id == v)

/-- Look up the current version of an instruction in a function by identity. -/
def findInstr (f : Func) (v : Nat) : Option Instr :=
  (allInstrs f).find? (fun i => i.id == v)

/-- A default/junk operand, used where the C code would read a missing
operand (well-formed MiniC IR never hits the default). -/
def junkOp : Operand := .const 0 0

def isLoad (i : Instr) : Bool := i.opcode == .load
def isStore (i : Instr) : Bool := i.opcode == .store

/-- The value operand of a store (`LLVMGetOperand s 0`). -/
def storeVal (i : Instr) : Operand := i.operands.getD 0 junkOp

/-- The pointer operand of a store (`LLVMGetOperand s 1`). -/
def storePtr (i : Instr) : Operand := i.operands.getD 1 junkOp

/-- Embedding of `isSameOperands`: same operand count and componentwise
identical operands. The additional `LLVMTypeOf` comparison in the source
is subsumed: identical references have identical types, and interned
constants are identical iff type and value agree (`Operand.const ty v`). -/
def isSameOperands (i1 i2 : Instr) : Bool := i1.operands == i2.operands

/-- The instructions strictly between the instruction with id `fromId` and
the instruction with id `toId` in block `b`, in block order; if `toId` is
not found after `fromId` the walk runs to the end of the block, exactly
like the `LLVMGetNextInstruction` loop in `safeToReplaceLoadInstructions`. -/
def betweenSeg (b : Block) (fromId toId : Nat) : List Instr :=
  ((b.dropWhile (fun i => !(i.id == fromId))).drop 1).takeWhile
    (fun i => !(i.id == toId))

/-- Embedding of `safeToReplaceLoadInstructions`: no store between the two
instructions writes to the pointer operand of `i1`. -/
def safeToReplaceLoadInstructions (b : Block) (i1 i2 : Instr) : Bool :=
  let ptr1 := i1.operands.getD 0 junkOp
  (betweenSeg b i1.id i2.id).all fun c =>
    !(isStore c && (storePtr c == ptr1))

/-- Embedding of `isCommonSubexpression`. Note that for `icmp` instructions
only the operands are compared: the predicate is *not* inspected anywhere
in this test (this matters for claim C2). -/
def isCommonSubexpression (b : Block) (i1 i2 : Instr) : Bool :=
  isSameOperands i1 i2 &&
    ((!isLoad i1 && !isLoad i2) || safeToReplaceLoadInstructions b i1 i2)

/-- Opcode-keyed buckets of previously seen instruction ids
(the `unordered_map<LLVMOpcode, vector<LLVMValueRef>>` of CSE). -/
abbrev OpcodeMap := List (Opcode × List Nat)

def bucketGet (m : OpcodeMap) (op : Opcode) : List Nat :=
  match m.find? (fun e => e.1 == op) with
  | some e => e.2
  | none => []

def bucketPush (m : OpcodeMap) (op : Opcode) (v : Nat) : OpcodeMap :=
  match m with
  | [] => [(op, [v])]
  | e :: rest =>
    if e.1 == op then (op, e.2 ++ [v]) :: rest else e :: bucketPush rest op v

/-- Scan an opcode bucket in order for the first previous instruction that
still has uses and is a common subexpression with `cur`; previous
instructions are re-fetched from the current block state because their
operands may have been rewritten by earlier replacements. -/
def findCSEMatch (f : Func) (b : Block) (cur : Instr) : List Nat → Option Nat
  | [] => none
  | p :: rest =>
    match findInstrInBlock b p with
    | none => findCSEMatch f b cur rest
    | some prev =>
      if hasUses f p && isCommonSubexpression b prev cur then some p
      else findCSEMatch f b cur rest

/-- The per-instruction loop of `commonSubexpressionElimination`, walking
the (identity-stable) instruction ids of block `bi` in their original
order while threading the mutated function state, the opcode buckets and
the changed flag. -/
def cseLoop (bi : Nat) : List Nat → Func → OpcodeMap → Bool → Func × Bool
  | [], f, _, ch => (f, ch)
  | v :: rest, f, m, ch =>
    match findInstrInBlock (f.getD bi []) v with
    | none => cseLoop bi rest f m ch
    | some cur =>
      if cur.opcode == .alloca then cseLoop bi rest f m ch
      else
        match findCSEMatch f (f.getD bi []) cur (bucketGet m cur.opcode) with
        | some p =>
          cseLoop bi rest (rauw f v (.instr p)) (bucketPush m cur.opcode v) true
        | none => cseLoop bi rest f (bucketPush m cur.opcode v) ch

/-- Embedding of `commonSubexpressionElimination` on the block at index
`bi` of `f`; returns the mutated function and the changed flag. -/
def commonSubexpressionElimination (f : Func) (bi : Nat) : Func × Bool :=
  cseLoop bi ((f.getD bi []).map (·.id)) f [] false

/-- Embedding of `hasSideEffects`: store, terminator (`br`, `ret`) or call. -/
def hasSideEffects (i : Instr) : Bool :=
  isStore i || i.opcode == .br || i.opcode == .ret || i.opcode == .call

/-- Embedding of `LLVMInstructionEraseFromParent`: remove the instruction
with id `v` from its parent block (erasure also severs its operand
references, which in this embedding are part of the instruction itself). -/
def eraseInstr (f : Func) (v : Nat) : Func :=
  f.map (·.filter (fun i => !(i.id == v)))

/-- Embedding of `deleteMarkedInstructions`: erase the marked instructions
one after the other. -/
def deleteMarkedInstructions (f : Func) (toDelete : List Nat) : Func :=
  toDelete.foldl eraseInstr f

/-- The instructions that `deadCodeElimination` marks in the block at
index `bi`: no uses and no side effects, evaluated on the state at the
start of the pass (collection happens before any deletion). -/
def dceToDelete (f : Func) (bi : Nat) : List Nat :=
  ((f.getD bi []).filter (fun i => !hasUses f i.id && !hasSideEffects i)).map (·.id)

/-- Embedding of `deadCodeElimination` on the block at index `bi`. -/
def deadCodeElimination (f : Func) (bi : Nat) : Func × Bool :=
  let td := dceToDelete f bi
  (deleteMarkedInstructions f td, !td.isEmpty)

/-- Embedding of `isArithmeticOrIcmpOperation`. -/
def isArithmeticOrIcmpOperation (i : Instr) : Bool :=
  i.opcode == .add || i.opcode == .sub || i.opcode == .mul || i.opcode == .icmp

def isConstOperand : Operand → Bool
  | .const _ _ => true
  | _ => false

/-- Embedding of `allOperandsAreConstant` (`LLVMIsAConstantInt` on every
operand). -/
def allOperandsAreConstant (i : Instr) : Bool := i.operands.all isConstOperand

/-- Two's-complement wrap-around into `w` bits with signed interpretation,
as performed by `LLVMConstAdd`/`LLVMConstSub`/`LLVMConstMul` on `iw`. -/
def wrapSigned (w : Nat) (x : Int) : Int :=
  let m : Int := 2 ^ w
  let r := x % m
  if r < 2 ^ (w - 1) then r else r - m

/-- Signed evaluation of the six icmp predicates. -/
def evalPred (p : Pred) (a b : Int) : Bool :=
  match p with
  | .eq => a == b
  | .ne => !(a == b)
  | .slt => decide (a < b)
  | .sle => decide (a ≤ b)
  | .sgt => decide (b < a)
  | .sge => decide (b ≤ a)

/-- Embedding of `computeFoldedConstant`: the interned constant produced by
`LLVMConstAdd`/`LLVMConstSub`/`LLVMConstMul`/`LLVMConstICmp` on the two
constant operands (arithmetic wraps in the operand width; `icmp` yields an
`i1` constant). `none` corresponds to the `NULL` return for other opcodes. -/
def computeFoldedConstant (i : Instr) : Option Operand :=
  match i.operands.getD 0 junkOp, i.operands.getD 1 junkOp with
  | .const ty a, .const _ b =>
    match i.opcode with
    | .add => some (.const ty (wrapSigned ty (a + b)))
    | .sub => some (.const ty (wrapSigned ty (a - b)))
    | .mul => some (.const ty (wrapSigned ty (a * b)))
    | .icmp => some (.const 1 (if evalPred i.pred a b then 1 else 0))
    | _ => none
  | _, _ => none

/-- The per-instruction loop of `constantFolding`, threading the mutated
function (each replacement can turn a later instruction's operands
constant within the same walk, which the fresh re-fetch reflects). -/
def foldLoop (bi : Nat) : List Nat → Func → Bool → Func × Bool
  | [], f, ch => (f, ch)
  | v :: rest, f, ch =>
    match findInstrInBlock (f.getD bi []) v with
    | none => foldLoop bi rest f ch
    | some cur =>
      if isArithmeticOrIcmpOperation cur && allOperandsAreConstant cur then
        foldLoop bi rest (rauw f v ((computeFoldedConstant cur).getD junkOp)) true
      else foldLoop bi rest f ch

/-- Embedding of `constantFolding` on the block at index `bi`. -/
def constantFolding (f : Func) (bi : Nat) : Func × Bool :=
  foldLoop bi ((f.getD bi []).map (·.id)) f false

/-!  Constant propagation (`constantPropagation` and its helpers). -/

/-- The store-instructions map: pointer operand ↦ ids of the stores writing
through that pointer, in function order (`buildStoreInstructionsMap`). The
map holds instruction *references*; contents are re-fetched from the
current function state at use sites. -/
abbrev StoreMap := List (Operand × List Nat)

def smapAppend (m : StoreMap) (p : Operand) (v : Nat) : StoreMap :=
  match m with
  | [] => [(p, [v])]
  | e :: rest =>
    if e.1 == p then (p, e.2 ++ [v]) :: rest else e :: smapAppend rest p v

def smapGet (m : StoreMap) (p : Operand) : List Nat :=
  match m.find? (fun e => e.1 == p) with
  | some e => e.2
  | none => []

/-- Embedding of `buildStoreInstructionsMap`. -/
def buildStoreInstructionsMap (f : Func) : StoreMap :=
  (allInstrs f).foldl
    (fun m i => if isStore i then smapAppend m (storePtr i) i.id else m) []

/-- Fetch the current versions of the instructions with the given ids. -/
def fetchInstrs (f : Func) (ids : List Nat) : List Instr :=
  ids.filterMap (findInstr f)

/-- One iteration of the inner loop of `buildKillNGenSetMaps` over the
stores `t` writing the same pointer as the current store `sid`: `t` is
inserted into KILL when it is a different store, and removed from GEN
when present there (and different). The pair is (GEN, KILL). -/
def killGenStep (sid : Nat) (gk : Finset Nat × Finset Nat) (t : Instr) :
    Finset Nat × Finset Nat :=
  (if t.id ∈ gk.1 ∧ t.id ≠ sid then gk.1.erase t.id else gk.1,
   if t.id ≠ sid then insert t.id gk.2 else gk.2)

/-- The inner loop of `buildKillNGenSetMaps` for one store instruction with
id `sid` writing pointer `p`: the store is first inserted into GEN, then
every store to `p` is visited with `killGenStep`. -/
def killGenStore (f : Func) (smap : StoreMap) (sid : Nat) (p : Operand)
    (gk : Finset Nat × Finset Nat) : Finset Nat × Finset Nat :=
  (fetchInstrs f (smapGet smap p)).foldl (killGenStep sid) (insert sid gk.1, gk.2)

/-- The per-instruction body of `buildKillNGenSetMaps`: only stores are
processed. -/
def killGenInstr (f : Func) (smap : StoreMap) (gk : Finset Nat × Finset Nat)
    (i : Instr) : Finset Nat × Finset Nat :=
  if isStore i then killGenStore f smap i.id (storePtr i) gk else gk

/-- Embedding of the per-block body of `buildKillNGenSetMaps`: fold the
GEN/KILL pair over the block's instructions. -/
def killGenBlock (f : Func) (smap : StoreMap) (b : Block) :
    Finset Nat × Finset Nat :=
  b.foldl (killGenInstr f smap) (∅, ∅)

/-- GEN set of a block (`genSetMap` entry after `buildKillNGenSetMaps`). -/
def genSet (f : Func) (smap : StoreMap) (b : Block) : Finset Nat :=
  (killGenBlock f smap b).1

/-- KILL set of a block (`killSetMap` entry after `buildKillNGenSetMaps`). -/
def killSet (f : Func) (smap : StoreMap) (b : Block) : Finset Nat :=
  (killGenBlock f smap b).2

/-- The successor block indices of a block: the label operands of its
terminator (the last instruction), as reported by `LLVMGetSuccessor`. -/
def successors (b : Block) : List Nat :=
  match b.getLast? with
  | none => []
  | some t => t.operands.filterMap (fun o =>
      match o with
      | .label j => some j
      | _ => none)

/-- Embedding of `buildPredMap`: for each block, the list of its
predecessors, accumulated by pushing each block onto each of its
successors' lists in block order. -/
def buildPredMap (f : Func) : List (List Nat) :=
  (List.range f.length).foldl
    (fun pm p =>
      (successors (f.getD p [])).foldl
        (fun pm s => pm.set s (pm.getD s [] ++ [p])) pm)
    (List.replicate f.length [])

/-- Embedding of `findUnionOfAllPredOuts`. -/
def unionPredOuts (pm : List (List Nat)) (outs : List (Finset Nat)) (j : Nat) :
    Finset Nat :=
  (pm.getD j []).foldl (fun acc p => acc ∪ outs.getD p ∅) ∅

/-- Embedding of `findUnionOfInAndGen`, including the early return of
`GEN[B]` when `IN[B]` is empty. -/
def unionInAndGen (ins kills gens : List (Finset Nat)) (j : Nat) : Finset Nat :=
  let i := ins.getD j ∅
  if i = ∅ then gens.getD j ∅
  else (i \ kills.getD j ∅) ∪ gens.getD j ∅

/-- One sweep of the `while` loop body of `buildInNOutSets`: visit the
blocks in order, updating `IN` and `OUT` in place (later blocks of the
same sweep see earlier blocks' new `OUT` sets) and recording whether any
`OUT` set changed. -/
def inOutSweep (pm : List (List Nat)) (kills gens : List (Finset Nat)) (n : Nat)
    (st : List (Finset Nat) × List (Finset Nat) × Bool) :
    List (Finset Nat) × List (Finset Nat) × Bool :=
  (List.range n).foldl
    (fun st j =>
      let ins := st.1.set j (unionPredOuts pm st.2.1 j)
      let newOut := unionInAndGen ins kills gens j
      let changed := st.2.2 || !(st.2.1.getD j ∅ = newOut)
      (ins, st.2.1.set j newOut, changed))
    st

/-- The `while (codeChanged)` loop of `buildInNOutSets`, bounded by fuel;
`none` means the bound was exhausted before the fixpoint (never the wrong
answer). -/
def inOutLoop (pm : List (List Nat)) (kills gens : List (Finset Nat)) (n : Nat) :
    Nat → List (Finset Nat) → List (Finset Nat) →
    Option (List (Finset Nat) × List (Finset Nat))
  | 0, _, _ => none
  | fuel + 1, ins, outs =>
    let st := inOutSweep pm kills gens n (ins, outs, false)
    if st.2.2 then inOutLoop pm kills gens n fuel st.1 st.2.1
    else some (st.1, st.2.1)

/-- Embedding of `buildInNOutSets`: initialize `IN = ∅`, `OUT = GEN` and
iterate to the fixpoint. -/
def buildInNOutSets (f : Func) (pm : List (List Nat))
    (kills gens : List (Finset Nat)) :
    Option (List (Finset Nat) × List (Finset Nat)) :=
  inOutLoop pm kills gens f.length
    ((allInstrs f).length * f.length + f.length + 2)
    (List.replicate f.length ∅) gens

/-- Embedding of `processStoreInstruction`: remove from `R` every store to
the same pointer (the current one transiently included), then insert the
current store. -/
def processStoreInstruction (smap : StoreMap) (i : Instr) (R : Finset Nat) :
    Finset Nat :=
  insert i.id ((smapGet smap (storePtr i)).foldl (fun R t => R.erase t) R)

/-- Embedding of `allStoreWriteSameConstant`. On the empty list the C code
reads element 0 of an empty `std::vector` — undefined behavior — which the
embedding models as the fault value `none`. -/
def allStoreWriteSameConstant (l : List Instr) : Option Bool :=
  match l with
  | [] => none
  | first :: _ =>
    if !isConstOperand (storeVal first) then some false
    else some (l.all fun s => isConstOperand (storeVal s) && storeVal s == storeVal first)

/-- Embedding of `processLoadInstruction`: compute the reaching stores
`C = R ∩ S[loadPtr]` (in store-map order, re-fetched from the current
state) and, when they all write the same interned constant, redirect the
load's uses to that constant and mark the load; `none` propagates the
undefined behavior of `allStoreWriteSameConstant` on an empty `C`. -/
def processLoadInstruction (smap : StoreMap) (f : Func) (i : Instr)
    (R : Finset Nat) (td : List Nat) : Option (Func × List Nat) :=
  let loadPtr := i.operands.getD 0 junkOp
  let C := (fetchInstrs f (smapGet smap loadPtr)).filter (fun s => decide (s.id ∈ R))
  match allStoreWriteSameConstant C, C with
  | none, _ => none
  | some true, first :: _ => some (rauw f i.id (storeVal first), td ++ [i.id])
  | some true, [] => none
  | some false, _ => some (f, td)

/-- The per-instruction loop of `processBasicBlocks` for one block,
threading the function state, the running set `R` and the deletion list. -/
def propInstrLoop (smap : StoreMap) :
    List Nat → Func → Finset Nat → List Nat →
    Option (Func × Finset Nat × List Nat)
  | [], f, R, td => some (f, R, td)
  | v :: rest, f, R, td =>
    match findInstr f v with
    | none => propInstrLoop smap rest f R td
    | some i =>
      if isStore i then propInstrLoop smap rest f (processStoreInstruction smap i R) td
      else if isLoad i then
        match processLoadInstruction smap f i R td with
        | none => none
        | some (f', td') => propInstrLoop smap rest f' R td'
      else propInstrLoop smap rest f R td

/-- The per-block body of `processBasicBlocks`: seed `R` with `IN[B]` and
run the instruction loop, threading the function state and the deletion
list. -/
def propBlockStep (smap : StoreMap) (ins : List (Finset Nat))
    (acc : Option (Func × List Nat)) (j : Nat) : Option (Func × List Nat) :=
  match acc with
  | none => none
  | some (f, td) =>
    match propInstrLoop smap ((f.getD j []).map (·.id)) f (ins.getD j ∅) td with
    | none => none
    | some (f', _, td') => some (f', td')

/-- Embedding of `processBasicBlocks`: walk the blocks in order. -/
def processBasicBlocks (smap : StoreMap) (ins : List (Finset Nat)) (f : Func) :
    Option (Func × List Nat) :=
  (List.range f.length).foldl (propBlockStep smap ins) (some (f, []))

/-- The analysis and transformation of `constantPropagation` up to but not
including the final `deleteMarkedInstructions` call: returns the
transformed function and the marked loads. -/
def constantPropagationCore (f : Func) : Option (Func × List Nat) :=
  let smap := buildStoreInstructionsMap f
  let kg := f.map (killGenBlock f smap)
  match buildInNOutSets f (buildPredMap f) (kg.map (·.2)) (kg.map (·.1)) with
  | none => none
  | some (ins, _) => processBasicBlocks smap ins f

/-- Embedding of `constantPropagation`: transform, delete the marked
loads, and report change iff any load was marked. -/
def constantPropagation (f : Func) : Option (Func × Bool) :=
  match constantPropagationCore f with
  | none => none
  | some (f', td) => some (deleteMarkedInstructions f' td, !td.isEmpty)

/-- The per-block body of the `optimizeFunction` loop: constant folding,
then CSE, then DCE on block `j`, accumulating the changed flag. -/
def blockPasses (f : Func) (j : Nat) (ch : Bool) : Func × Bool :=
  let r1 := constantFolding f j
  let r2 := commonSubexpressionElimination r1.1 j
  let r3 := deadCodeElimination r2.1 j
  (r3.1, ((ch || r1.2) || r2.2) || r3.2)

/-- The fold step applying `blockPasses` to each block index. -/
def blockStep (st : Func × Bool) (j : Nat) : Func × Bool :=
  blockPasses st.1 j st.2

/-- One iteration of the `while (codeChanged)` body of `optimizeFunction`:
constant propagation over the function, then the three local passes over
each block in order. -/
def optRound (f : Func) : Option (Func × Bool) :=
  match constantPropagation f with
  | none => none
  | some (f0, c0) =>
    some ((List.range f0.length).foldl blockStep (f0, c0))

/-- Embedding of `optimizeFunction`: iterate rounds until a full round
reports no change, bounded by fuel (`none` = bound exhausted or a pass
faulted). -/
def optimizeFunction : Nat → Func → Option Func
  | 0, _ => none
  | fuel + 1, f =>
    match optRound f with
    | none => none
    | some (f', ch) => if ch then optimizeFunction fuel f' else some f'

/-!  An executable small-step semantics for the IR, used to state
observable-behavior claims. A state carries the environment of
instruction results, the memory of slot contents (keyed by the pointer
operand), the trace of performed calls (callee, argument values) and an
oracle supplying results of value-returning external calls. Execution is
fuel-bounded; `none` means out of fuel or a stuck (ill-formed or
undefined) configuration. -/

abbrev Env := List (Nat × Int)

def envGet (e : Env) (v : Nat) : Option Int :=
  (e.find? (fun p => p.1 == v)).map (·.2)

abbrev Mem := List (Operand × Int)

def memGet (m : Mem) (p : Operand) : Option Int :=
  (m.find? (fun q => q.1 == p)).map (·.2)

def memSet (m : Mem) (p : Operand) (x : Int) : Mem := (p, x) :: m

/-- Evaluate an operand: constants to their value, instruction references
through the environment, `param 0` to the function argument. -/
def evalOperand (arg : Int) (e : Env) : Operand → Option Int
  | .const _ v => some v
  | .instr v => envGet e v
  | .param 0 => some arg
  | _ => none

/-- A single observable event: a call, with callee name and argument
values. -/
abbrev Obs := Nat × List Int

def evalOperands (arg : Int) (e : Env) (l : List Operand) : Option (List Int) :=
  l.mapM (evalOperand arg e)

/-- Execute from an instruction list inside a function; fuel decreases at
every instruction. Returns the call trace and the return value of the
terminating `ret`. -/
def execFrom (f : Func) (arg : Int) :
    Nat → List Instr → Env → Mem → List Int → List Obs →
    Option (List Obs × Int)
  | 0, _, _, _, _, _ => none
  | _ + 1, [], _, _, _, _ => none
  | fuel + 1, i :: rest, e, m, orc, obs =>
    match i.opcode with
    | .alloca => execFrom f arg fuel rest e m orc obs
    | .load =>
      match memGet m (i.operands.getD 0 junkOp) with
      | none => none
      | some x => execFrom f arg fuel rest ((i.id, x) :: e) m orc obs
    | .store =>
      match evalOperand arg e (storeVal i) with
      | none => none
      | some x => execFrom f arg fuel rest e (memSet m (storePtr i) x) orc obs
    | .add =>
      match evalOperand arg e (i.operands.getD 0 junkOp),
            evalOperand arg e (i.operands.getD 1 junkOp) with
      | some a, some b =>
        execFrom f arg fuel rest ((i.id, wrapSigned 32 (a + b)) :: e) m orc obs
      | _, _ => none
    | .sub =>
      match evalOperand arg e (i.operands.getD 0 junkOp),
            evalOperand arg e (i.operands.getD 1 junkOp) with
      | some a, some b =>
        execFrom f arg fuel rest ((i.id, wrapSigned 32 (a - b)) :: e) m orc obs
      | _, _ => none
    | .mul =>
      match evalOperand arg e (i.operands.getD 0 junkOp),
            evalOperand arg e (i.operands.getD 1 junkOp) with
      | some a, some b =>
        execFrom f arg fuel rest ((i.id, wrapSigned 32 (a * b)) :: e) m orc obs
      | _, _ => none
    | .icmp =>
      match evalOperand arg e (i.operands.getD 0 junkOp),
            evalOperand arg e (i.operands.getD 1 junkOp) with
      | some a, some b =>
        execFrom f arg fuel rest
          ((i.id, if evalPred i.pred a b then 1 else 0) :: e) m orc obs
      | _, _ => none
    | .br =>
      match i.operands with
      | [.label j] => execFrom f arg fuel (f.getD j []) e m orc obs
      | [c, .label jf, .label jt] =>
        match evalOperand arg e c with
        | none => none
        | some x =>
          execFrom f arg fuel (f.getD (if x == 0 then jf else jt) []) e m orc obs
      | _ => none
    | .ret =>
      match evalOperand arg e (i.operands.getD 0 junkOp) with
      | none => none
      | some x => some (obs.reverse, x)
    | .call =>
      match i.operands.getLast? with
      | some (.funcref name) =>
        match evalOperands arg e (i.operands.dropLast) with
        | none => none
        | some args =>
          if i.retVoid then
            execFrom f arg fuel rest e m orc ((name, args) :: obs)
          else
            match orc with
            | [] => none
            | x :: orc' =>
              execFrom f arg fuel rest ((i.id, x) :: e) m orc'
                ((name, args) :: obs)
      | _ => none

/-- Run a function from its entry block on argument `arg` with external
call oracle `orc`. -/
def runFunction (f : Func) (arg : Int) (orc : List Int) (fuel : Nat) :
    Option (List Obs × Int) :=
  execFrom f arg fuel (f.getD 0 []) [] [] orc []

/-!  Backend: linear-scan register allocation
(`src/backend/register_allocation.cpp`) and the stack-frame size
computation of the emitter (`src/backend/codegen.cpp`). -/

/-- Register tags (`enum Register`); `eax` is never handed out. -/
inductive Reg where
  | eax | ebx | ecx | edx | spill
deriving DecidableEq, Repr

/-- Allocation map: instruction id ↦ register tag (`AllocatedReg`,
an `unordered_map` determinized as an association list in insertion
order). -/
abbrev AllocMap := List (Nat × Reg)

def allocLookup (m : AllocMap) (v : Nat) : Option Reg :=
  (m.find? (fun p => p.1 == v)).map (·.2)

/-- `operator[] =` on the allocation map: overwrite in place or append. -/
def allocSet (m : AllocMap) (v : Nat) (r : Reg) : AllocMap :=
  match m with
  | [] => [(v, r)]
  | e :: rest => if e.1 == v then (v, r) :: rest else e :: allocSet rest v r

/-- Live-usage map: instruction id ↦ indices where the value appears
(`LiveUsageMap`). -/
abbrev LiveMap := List (Nat × List Nat)

def lmGet (lm : LiveMap) (v : Nat) : Option (List Nat) :=
  (lm.find? (fun p => p.1 == v)).map (·.2)

def lmAppend (lm : LiveMap) (v : Nat) (idx : Nat) : LiveMap :=
  match lm with
  | [] => [(v, [idx])]
  | e :: rest =>
    if e.1 == v then (v, e.2 ++ [idx]) :: rest else e :: lmAppend rest v idx

def isAlloca (i : Instr) : Bool := i.opcode == .alloca

/-- Embedding of `hasResult`: `store`/`br`/`ret` produce no result, a
`call` produces one iff its type is not void, everything else produces
one. -/
def hasResultInstr (i : Instr) : Bool :=
  match i.opcode with
  | .store | .br | .ret => false
  | .call => !i.retVoid
  | _ => true

/-- Embedding of `computeLiveness`: build the live-usage map and the
instruction list (allocas excluded) for one block. The defining index is
recorded for result-producing instructions, and every operand occurrence
of a tracked value records the current index. -/
def computeLiveness (b : Block) : LiveMap × List Instr :=
  b.foldl
    (fun st i =>
      if isAlloca i then st
      else
        let lm0 := if hasResultInstr i then lmAppend st.1 i.id st.2.length else st.1
        let lm1 := i.operands.foldl
          (fun lm o =>
            match o with
            | .instr v => if (lmGet lm v).isSome then lmAppend lm v st.2.length else lm
            | _ => lm)
          lm0
        (lm1, st.2 ++ [i]))
    ([], [])

/-- The available-register pool (`unordered_set<Register>` determinized:
pop from the front, insert at the back when absent). -/
abbrev RegPool := List Reg

def poolInsert (p : RegPool) (r : Reg) : RegPool :=
  if p.contains r then p else p ++ [r]

/-- Embedding of `removeAllocatedRegister`: for each operand from
`startIdx` on that is a tracked value whose last use is at or before the
current index and that holds an allocation, return its tag to the pool. -/
def removeAllocatedRegister (idx startIdx : Nat) (i : Instr) (lm : LiveMap)
    (m : AllocMap) (pool : RegPool) : RegPool :=
  (i.operands.drop startIdx).foldl
    (fun pool o =>
      match o with
      | .instr v =>
        match lmGet lm v with
        | none => pool
        | some uses =>
          if uses.getLastD 0 > idx then pool
          else
            match allocLookup m v with
            | none => pool
            | some r => poolInsert pool r
      | _ => pool)
    pool

/-- Embedding of `selectSpillInstr`: the first map entry (in iteration
order) whose tag is not SPILL and whose live-usage count is strictly
below the running minimum (initialized to `INT_MAX`). -/
def selectSpillInstr (lm : LiveMap) (m : AllocMap) : Option Nat :=
  (m.foldl
    (fun best e =>
      if e.2 != Reg.spill && ((lmGet lm e.1).getD []).length < best.2
      then (some e.1, ((lmGet lm e.1).getD []).length)
      else best)
    ((none : Option Nat), 2147483647)).1

/-- The loop body of `allocateRegisterForBasicBlock` for the instruction
at index `idx`; state is (block allocation map, available pool, usedEBX). -/
def allocBody (lm : LiveMap) (st : AllocMap × RegPool × Bool) (idx : Nat)
    (curr : Instr) : AllocMap × RegPool × Bool :=
  let m := st.1
  let pool := st.2.1
  let ebx := st.2.2
  if !hasResultInstr curr then
    (m, removeAllocatedRegister idx 0 curr lm m pool, ebx)
  else
    let coalesced :=
      if curr.opcode == .add || curr.opcode == .sub || curr.opcode == .mul then
        match curr.operands.getD 0 junkOp with
        | .instr v =>
          if (allocLookup m v).isSome &&
              ((lmGet lm v).getD []).getLastD (idx + 1) == idx then
            some ((allocLookup m v).getD .spill)
          else none
        | _ => none
      else none
    match coalesced with
    | some r =>
      let m' := allocSet m curr.id r
      (m', removeAllocatedRegister idx 1 curr lm m' pool, ebx)
    | none =>
      match pool with
      | r :: pool' =>
        let m' := allocSet m curr.id r
        (m', removeAllocatedRegister idx 0 curr lm m' pool',
          ebx || r == Reg.ebx)
      | [] =>
        match selectSpillInstr lm m with
        | none => (allocSet m curr.id .spill, pool, ebx)
        | some victim =>
          if ((lmGet lm victim).getD []).length > ((lmGet lm curr.id).getD []).length
          then (allocSet m curr.id .spill, pool, ebx)
          else
            let r := (allocLookup m victim).getD .spill
            let m' := allocSet (allocSet m curr.id r) victim .spill
            (m', removeAllocatedRegister idx 0 curr lm m' pool, ebx)

/-- Embedding of `allocateRegisterForBasicBlock` (without the merge): run
the linear scan over the liveness instruction list. -/
def allocateForBlock (lm : LiveMap) (il : List Instr) : AllocMap × Bool :=
  let st := il.enum.foldl (fun st p => allocBody lm st p.1 p.2)
    (([] : AllocMap), ([Reg.ebx, Reg.ecx, Reg.edx] : RegPool), false)
  (st.1, st.2.2)

/-- Embedding of `mergeBBWGlobalMap`. -/
def mergeBBWGlobalMap (bm gm : AllocMap) : AllocMap :=
  bm.foldl (fun gm e => allocSet gm e.1 e.2) gm

/-- Embedding of `allocateRegisterForFunction`: per-block liveness and
linear scan, merged into the function map; `usedEBX` is the disjunction
over blocks. -/
def allocateRegisterForFunction (f : Func) : AllocMap × Bool :=
  f.foldl
    (fun st b =>
      let lv := computeLiveness b
      let r := allocateForBlock lv.1 lv.2
      (mergeBBWGlobalMap r.1 st.1, st.2 || r.2))
    ([], false)

/-- Embedding of `isSpilledInstruction`. -/
def isSpilledInstruction (m : AllocMap) (v : Nat) : Bool :=
  allocLookup m v == some Reg.spill

def isParamOperand : Operand → Bool
  | .param _ => true
  | _ => false

/-- Embedding of `isParameter` (codegen): some store instruction uses this
value and stores an argument as its value operand. -/
def isParameter (f : Func) (v : Nat) : Bool :=
  (allInstrs f).any fun u =>
    usesVal u v && (isStore u && isParamOperand (u.operands.getD 0 junkOp))

/-- The per-instruction body of `populateOffsetMap`: an alloca or spilled
instruction either is the parameter's backing slot (offset `+8`, no frame
growth) or bumps the frame by 4 bytes and gets the new negative offset.
State is (offset map, localMem). -/
def offsetStep (f : Func) (m : AllocMap) (st : List (Nat × Int) × Nat)
    (i : Instr) : List (Nat × Int) × Nat :=
  if isAlloca i || isSpilledInstruction m i.id then
    if isParameter f i.id then (st.1 ++ [(i.id, 8)], st.2)
    else (st.1 ++ [(i.id, -((st.2 : Int) + 4))], st.2 + 4)
  else st

/-- Embedding of `populateOffsetMap` for one block. -/
def populateOffsetMap (f : Func) (m : AllocMap) (b : Block)
    (st : List (Nat × Int) × Nat) : List (Nat × Int) × Nat :=
  b.foldl (offsetStep f m) st

/-- The frame computation of `generateAssemblyForFunction`: `localMem`
starts at 4 when EBX is used, else 0, and accumulates over all blocks;
`printFunctionDirectives` subtracts exactly this value from `%esp`. -/
def computeFrame (f : Func) (m : AllocMap) (usedEBX : Bool) :
    List (Nat × Int) × Nat :=
  f.foldl (fun st b => populateOffsetMap f m b st)
    ([], if usedEBX then 4 else 0)

/-- The frame size the emitter subtracts from `%esp` in the prologue. -/
def frameSize (f : Func) (m : AllocMap) (usedEBX : Bool) : Nat :=
  (computeFrame f m usedEBX).2

/-- Number of allocate-slot instructions of a function. -/
def nSlots (f : Func) : Nat := ((allInstrs f).filter isAlloca).length

/-- Number of SPILL-allocated instructions of a function. -/
def nSpills (f : Func) (m : AllocMap) : Nat :=
  ((allInstrs f).filter (fun i => isSpilledInstruction m i.id)).length

/-- The frame-relevant projection of an instruction: identity, opcode,
icmp predicate and call-result kind — everything except the operands. -/
def instrShape (i : Instr) : Nat × Opcode × Pred × Bool :=
  (i.id, i.opcode, i.pred, i.retVoid)

/-- The operand-erased shape of a whole function: block structure and, per
block, the ordered instruction shapes. -/
def funcShape (f : Func) : List (List (Nat × Opcode × Pred × Bool)) :=
  f.map (·.map instrShape)

/-- An instruction that occupies a (negative-offset) frame cell: alloca or
spilled, and not detected as the parameter's backing slot. -/
def isFrameSlot (f : Func) (m : AllocMap) (i : Instr) : Bool :=
  (isAlloca i || isSpilledInstruction m i.id) && !isParameter f i.id

/-- Every id in the list is use-free in `f`. -/
def noUsesAll (f : Func) (td : List Nat) : Prop :=
  ∀ x ∈ td, hasUses f x = false

/-!  Concrete IR functions used as test inputs for the claims. -/

/-- A function with two `icmp` instructions over the same operands but
different predicates, both feeding conditional branches
(`%c1 = icmp eq %p, 0` used by the entry branch, `%c2 = icmp ne %p, 0`
used by the branch of block 1). Valid MiniC-style IR: the cross-block use
of `%c2` is dominated by its definition. -/
def icmpF : Func :=
  [ [ ⟨1, .icmp, .eq, [.param 0, .const 32 0], false⟩,
      ⟨2, .icmp, .ne, [.param 0, .const 32 0], false⟩,
      ⟨3, .br, .eq, [.instr 1, .label 2, .label 1], false⟩ ],
    [ ⟨4, .br, .eq, [.instr 2, .label 4, .label 3], false⟩ ],
    [ ⟨5, .ret, .eq, [.const 32 0], false⟩ ],
    [ ⟨6, .ret, .eq, [.const 32 1], false⟩ ],
    [ ⟨7, .ret, .eq, [.const 32 2], false⟩ ] ]

/-- `int f() { int a; return a; }`: a load from a slot that no store ever
writes — the set of reaching stores for the load is empty. -/
def loadNoStoreF : Func :=
  [ [ ⟨0, .alloca, .eq, [], false⟩,
      ⟨1, .load, .eq, [.instr 0], false⟩,
      ⟨2, .ret, .eq, [.instr 1], false⟩ ] ]

/-- A single block storing twice to the same slot (`a = 5; a = 7;`). -/
def twoStoresF : Func :=
  [ [ ⟨0, .alloca, .eq, [], false⟩,
      ⟨1, .store, .eq, [.const 32 5, .instr 0], false⟩,
      ⟨2, .store, .eq, [.const 32 7, .instr 0], false⟩,
      ⟨3, .ret, .eq, [.const 32 0], false⟩ ] ]

/-- A block where instruction 2 is dead and is the only user of the pure
instruction 1. -/
def dceF : Func :=
  [ [ ⟨1, .add, .eq, [.param 0, .const 32 1], false⟩,
      ⟨2, .add, .eq, [.instr 1, .const 32 2], false⟩,
      ⟨3, .ret, .eq, [.const 32 0], false⟩ ] ]

/-- `int f() { int a; a = 5; return a; }`: constant propagation replaces
the load with the constant 5 and marks it. -/
def propF : Func :=
  [ [ ⟨0, .alloca, .eq, [], false⟩,
      ⟨1, .store, .eq, [.const 32 5, .instr 0], false⟩,
      ⟨2, .load, .eq, [.instr 0], false⟩,
      ⟨3, .ret, .eq, [.instr 2], false⟩ ] ]

/-- The state `constantPropagationCore` reaches on `propF` just before
deleting the marked load: the load's single use is already redirected to
the constant. -/
def propFCore : Func :=
  [ [ ⟨0, .alloca, .eq, [], false⟩,
      ⟨1, .store, .eq, [.const 32 5, .instr 0], false⟩,
      ⟨2, .load, .eq, [.instr 0], false⟩,
      ⟨3, .ret, .eq, [.const 32 5], false⟩ ] ]

/-- A function whose only local slot is the parameter's backing slot
(`store %param, %slot` in the entry block). -/
def paramF : Func :=
  [ [ ⟨0, .alloca, .eq, [], false⟩,
      ⟨1, .store, .eq, [.param 0, .instr 0], false⟩,
      ⟨2, .ret, .eq, [.const 32 0], false⟩ ] ]

/-- A straight-line block that forces a spill: four value-returning calls
overlap (three get EBX/ECX/EDX, the fourth — value 13 with the fewest
uses — is spilled); the void calls at indices 4 and 5 are the last uses
of values 10, 11, 12, freeing all three registers; the `add` at index 6
then consumes the SPILL-tagged value 13 as its first (and last-use)
operand while all three registers are free. -/
def spillF : Func :=
  [ [ ⟨10, .call, .eq, [.funcref 0], false⟩,
      ⟨11, .call, .eq, [.funcref 0], false⟩,
      ⟨12, .call, .eq, [.funcref 0], false⟩,
      ⟨13, .call, .eq, [.funcref 0], false⟩,
      ⟨14, .call, .eq, [.instr 10, .instr 10, .instr 11, .instr 11, .funcref 1], true⟩,
      ⟨15, .call, .eq, [.instr 12, .instr 12, .funcref 1], true⟩,
      ⟨16, .add, .eq, [.instr 13, .const 32 1], false⟩,
      ⟨17, .ret, .eq, [.instr 16], false⟩ ] ]

/-- The smallest function: `return 0`, already a fixpoint of the
optimizer. -/
def trivF : Func := [ [ ⟨1, .ret, .eq, [.const 32 0], false⟩ ] ]

/-!  General lemmas about the embedding. -/

lemma getD_map_of_nil (g : Block → Block) (hg : g [] = []) (f : Func) :
    ∀ j : Nat, (f.map g).getD j [] = g (f.getD j []) := by
  induction f with
  | nil => intro j; simp [hg]
  | cons b f ih =>
    intro j
    cases j with
    | zero => simp
    | succ j => simpa using ih j

lemma instrShape_rauwInstr (old : Nat) (o : Operand) (i : Instr) :
    instrShape (rauwInstr old o i) = instrShape i := rfl

lemma funcShape_rauw (f : Func) (old : Nat) (o : Operand) :
    funcShape (rauw f old o) = funcShape f := by
  simp [funcShape, rauw, List.map_map, Function.comp, instrShape_rauwInstr]

lemma funcShape_cseLoop (bi : Nat) :
    ∀ (ids : List Nat) (f : Func) (m : OpcodeMap) (ch : Bool),
      funcShape (cseLoop bi ids f m ch).1 = funcShape f := by
  intro ids
  induction ids with
  | nil => intro f m ch; rfl
  | cons v rest ih =>
    intro f m ch
    simp only [cseLoop]
    split
    · exact ih f m ch
    · next cur _ =>
      split
      · exact ih f m ch
      · split
        · next p _ =>
          exact (ih (rauw f v (.instr p)) (bucketPush m cur.opcode v) true).trans
            (funcShape_rauw f v (.instr p))
        · exact ih f (bucketPush m cur.opcode v) ch

lemma hasUses_eq_false {f : Func} {v : Nat} :
    hasUses f v = false ↔ ∀ i ∈ allInstrs f, usesVal i v = false := by
  simp [hasUses, List.any_eq_false]

lemma allInstrs_eraseInstr_sub {f : Func} {v : Nat} {i : Instr}
    (h : i ∈ allInstrs (eraseInstr f v)) : i ∈ allInstrs f := by
  simp only [allInstrs, eraseInstr, List.mem_flatten, List.mem_map] at h ⊢
  obtain ⟨l, ⟨b, hb, rfl⟩, hi⟩ := h
  exact ⟨b, hb, (List.mem_filter.mp hi).1⟩

lemma hasUses_false_erase {f : Func} {x v : Nat} (h : hasUses f x = false) :
    hasUses (eraseInstr f v) x = false := by
  rw [hasUses_eq_false] at h ⊢
  exact fun i hi => h i (allInstrs_eraseInstr_sub hi)

lemma hasUses_false_deleteMarked {x : Nat} :
    ∀ (ids : List Nat) (f : Func), hasUses f x = false →
      hasUses (deleteMarkedInstructions f ids) x = false := by
  intro ids
  induction ids with
  | nil => intro f h; exact h
  | cons v rest ih => intro f h; exact ih (eraseInstr f v) (hasUses_false_erase h)

lemma allInstrs_rauw (f : Func) (old : Nat) (o : Operand) :
    allInstrs (rauw f old o) = (allInstrs f).map (rauwInstr old o) := by
  induction f with
  | nil => rfl
  | cons b f ih =>
    simp only [allInstrs, rauw, List.map_cons, List.flatten_cons, List.map_append]
    exact congrArg (List.map (rauwInstr old o) b ++ ·) ih

lemma usesVal_rauwInstr_imp {old : Nat} {o : Operand} {i : Instr} {v : Nat}
    (h : usesVal (rauwInstr old o i) v = true) :
    usesVal i v = true ∨ o = .instr v := by
  simp only [usesVal, rauwInstr, List.any_eq_true, List.mem_map] at h ⊢
  obtain ⟨op, ⟨op0, hop0, rfl⟩, heq⟩ := h
  rw [beq_iff_eq] at heq
  by_cases h0 : (op0 == Operand.instr old) = true
  · right
    simpa [rauwOp, h0] using heq
  · left
    refine ⟨op0, hop0, ?_⟩
    rw [beq_iff_eq]
    simpa [rauwOp, h0] using heq

lemma hasUses_false_rauw {f : Func} {x old : Nat} {o : Operand}
    (ho : ∀ w, o ≠ .instr w) (h : hasUses f x = false) :
    hasUses (rauw f old o) x = false := by
  rw [hasUses_eq_false] at h ⊢
  intro i hi
  rw [allInstrs_rauw] at hi
  obtain ⟨i0, hi0, rfl⟩ := List.mem_map.mp hi
  by_contra hne
  rcases usesVal_rauwInstr_imp (Bool.of_not_eq_false hne) with h1 | h1
  · rw [h i0 hi0] at h1; exact Bool.false_ne_true h1
  · exact ho x h1

lemma rauwOp_ne_self {v : Nat} {o : Operand} (ho : o ≠ .instr v)
    (op0 : Operand) : rauwOp v o op0 ≠ .instr v := by
  simp only [rauwOp]
  split
  · exact ho
  · next h0 =>
    intro hc
    exact h0 (by rw [hc]; exact beq_self_eq_true _)

lemma hasUses_rauw_self {f : Func} {v : Nat} {o : Operand}
    (ho : o ≠ .instr v) : hasUses (rauw f v o) v = false := by
  rw [hasUses_eq_false]
  intro i hi
  rw [allInstrs_rauw] at hi
  obtain ⟨i0, _, rfl⟩ := List.mem_map.mp hi
  simp only [usesVal, rauwInstr, List.any_eq_false]
  intro op hop
  obtain ⟨op0, hop0, rfl⟩ := List.mem_map.mp hop
  intro hcon
  rw [beq_iff_eq] at hcon
  exact rauwOp_ne_self ho op0 hcon

/-- C10: common-subexpression elimination never erases, inserts or
reorders instructions: the operand-erased shape of every block of the
function — the ordered list of (identity, opcode, predicate, call-kind)
of its instructions — is exactly preserved by a CSE pass; the only
mutation is the rewriting of operands (redirecting uses of a matched
later instruction to the earlier equivalent one), and the replaced
instruction remains in place until a later DCE pass deletes it. -/
theorem cse_only_redirects_uses (f : Func) (bi : Nat) :
    funcShape (commonSubexpressionElimination f bi).1 = funcShape f := by
  unfold commonSubexpressionElimination
  exact funcShape_cseLoop bi _ f [] false

/-- C2 counterexample evidence (code_bug): on `icmpF`, whose entry block
holds `%1 = icmp eq %p, 0` and `%2 = icmp ne %p, 0` (same operands,
different predicates, both used by branches), the CSE pass *does* replace
the uses of the later icmp with the earlier one: the branch of block 1,
which conditioned on `%2`, ends up conditioned on `%1`, and the pass
reports a change. The claim — CSE treats icmps as common subexpressions
only when their predicates are identical — is violated because
`isSameOperands`/`isCommonSubexpression` never inspect the predicate. -/
theorem cse_merges_distinct_icmp_predicates :
    (commonSubexpressionElimination icmpF 0).2 = true ∧
    (commonSubexpressionElimination icmpF 0).1.getD 1 [] =
      [⟨4, .br, .eq, [.instr 1, .label 4, .label 3], false⟩] :=
  ⟨by decide, by decide⟩

/-- C1 counterexample evidence (code_bug): the optimizer does not preserve
observable behavior. On `icmpF` with argument 0 the original function
returns 2, while the optimized function (CSE having merged the `icmp ne`
into the `icmp eq`, then DCE having deleted it) returns 1; no calls
or stores occur in either execution, so the observable traces differ. -/
theorem optimizer_changes_return_value :
    runFunction icmpF 0 [] 50 = some ([], 2) ∧
    (optimizeFunction 8 icmpF).map (fun g => runFunction g 0 [] 50) =
      some (some ([], 1)) :=
  ⟨by decide, by decide⟩

/-- C3 counterexample evidence (code_bug): on `loadNoStoreF` — a load from
a slot that no store writes — the set `C` of reaching stores is empty and
the per-load processing is *not* total: `allStoreWriteSameConstant` reads
element 0 of an empty `std::vector` (undefined behavior, modeled as the
fault value `none`), so the whole pass faults instead of leaving the load
unchanged. -/
theorem constant_propagation_faults_on_unwritten_load :
    constantPropagation loadNoStoreF = none := by decide

/-!  Dead-code elimination lemmas. -/

lemma eraseInstr_getD (f : Func) (v j : Nat) :
    (eraseInstr f v).getD j [] = (f.getD j []).filter (fun i => !(i.id == v)) :=
  getD_map_of_nil _ rfl f j

lemma deleteMarked_getD :
    ∀ (ids : List Nat) (f : Func) (j : Nat),
      (deleteMarkedInstructions f ids).getD j [] =
        (f.getD j []).filter (fun i => !(ids.contains i.id)) := by
  intro ids
  induction ids with
  | nil =>
    intro f j
    simp [deleteMarkedInstructions]
  | cons v rest ih =>
    intro f j
    have h1 : deleteMarkedInstructions f (v :: rest)
        = deleteMarkedInstructions (eraseInstr f v) rest := rfl
    rw [h1, ih, eraseInstr_getD, List.filter_filter]
    refine List.filter_congr ?_
    intro i _
    simp only [List.contains_cons, Bool.not_or]
    exact Bool.and_comm _ _

lemma mem_dceToDelete_elim {f : Func} {bi : Nat} {x : Nat}
    (h : x ∈ dceToDelete f bi) :
    ∃ j ∈ f.getD bi [], j.id = x ∧ hasUses f j.id = false ∧
      hasSideEffects j = false := by
  simp only [dceToDelete, List.mem_map, List.mem_filter] at h
  obtain ⟨j, ⟨hj, hcond⟩, rfl⟩ := h
  have hc := (Bool.and_eq_true _ _).mp hcond
  exact ⟨j, hj, rfl, by simpa using hc.1, by simpa using hc.2⟩

lemma mem_dceToDelete {f : Func} {bi : Nat} {x : Nat}
    (h : x ∈ dceToDelete f bi) : hasUses f x = false := by
  obtain ⟨j, _, rfl, hu, _⟩ := mem_dceToDelete_elim h
  exact hu

lemma mem_getD_allInstrs {f : Func} {j : Nat} {i : Instr}
    (h : i ∈ f.getD j []) : i ∈ allInstrs f := by
  induction f generalizing j with
  | nil => simp at h
  | cons b f ih =>
    cases j with
    | zero =>
      simp only [List.getD_cons_zero] at h
      simp only [allInstrs, List.flatten_cons]
      exact List.mem_append_left _ h
    | succ j =>
      simp only [List.getD_cons_succ] at h
      have hmem := ih h
      simp only [allInstrs, List.flatten_cons] at hmem ⊢
      exact List.mem_append_right _ hmem

lemma id_inj_of_nodup {f : Func} (hnd : ((allInstrs f).map (·.id)).Nodup)
    {i j : Instr} (hi : i ∈ allInstrs f) (hj : j ∈ allInstrs f)
    (hij : i.id = j.id) : i = j :=
  List.inj_on_of_nodup_map hnd hi hj hij

/-- C5 counterexample: on `dceF`, one DCE pass deletes instruction 2 (no
uses, pure) but keeps instruction 1, whose only user was instruction 2;
after the pass, instruction 1 remains although it is not side-effectful
and has no uses — contradicting the claim that after DCE every remaining
non-side-effect instruction has at least one use. -/
theorem dce_leaves_newly_dead_instruction :
    (deadCodeElimination dceF 0).1.getD 0 [] =
      [⟨1, .add, .eq, [.param 0, .const 32 1], false⟩,
       ⟨3, .ret, .eq, [.const 32 0], false⟩] ∧
    hasSideEffects ⟨1, .add, .eq, [.param 0, .const 32 1], false⟩ = false ∧
    hasUses (deadCodeElimination dceF 0).1 1 = false :=
  ⟨by decide, by decide, by decide⟩

/-- C5 amended: dead-code elimination deletes exactly the instructions that
have no uses and no observable side effect (side-effectful opcodes being
store, call and the terminators), with both conditions evaluated on the
state at the start of the pass; consequently every remaining
non-side-effect instruction *had* at least one use at the start of the
pass (a use possibly belonging to an instruction deleted in the same
pass, so the remaining instruction may be use-free afterwards until a
later round deletes it). -/
theorem dce_exactness_and_pre_pass_uses (f : Func) (bi : Nat)
    (hnd : ((allInstrs f).map (·.id)).Nodup) :
    (deadCodeElimination f bi).1.getD bi [] =
      (f.getD bi []).filter (fun i => hasUses f i.id || hasSideEffects i) ∧
    ∀ i ∈ (deadCodeElimination f bi).1.getD bi [],
      hasSideEffects i = false → hasUses f i.id = true := by
  have h1 : (deadCodeElimination f bi).1
      = deleteMarkedInstructions f (dceToDelete f bi) := rfl
  have key : ∀ i ∈ f.getD bi [],
      (!((dceToDelete f bi).contains i.id)) = (hasUses f i.id || hasSideEffects i) := by
    intro i hi
    have hiall : i ∈ allInstrs f := mem_getD_allInstrs hi
    by_cases hu : hasUses f i.id = true
    · have hnot : i.id ∉ dceToDelete f bi := by
        intro hmem
        rw [mem_dceToDelete hmem] at hu
        exact Bool.false_ne_true hu
      simp [hu, hnot]
    · have hu' : hasUses f i.id = false := by
        cases hx : hasUses f i.id
        · rfl
        · exact absurd hx hu
      by_cases hs : hasSideEffects i = true
      · have hnot : i.id ∉ dceToDelete f bi := by
          intro hmem
          obtain ⟨j, hj, hjid, _, hjs⟩ := mem_dceToDelete_elim hmem
          have hji : j = i := id_inj_of_nodup hnd (mem_getD_allInstrs hj) hiall hjid
          rw [hji, hs] at hjs
          exact Bool.false_ne_true hjs.symm
        simp [hu', hs, hnot]
      · have hs' : hasSideEffects i = false := by
          cases hx : hasSideEffects i
          · rfl
          · exact absurd hx hs
        have hmem : i.id ∈ dceToDelete f bi := by
          simp only [dceToDelete, List.mem_map]
          exact ⟨i, List.mem_filter.mpr ⟨hi, by simp [hu', hs']⟩, rfl⟩
        simp [hu', hs', hmem]
  have hfirst : (deadCodeElimination f bi).1.getD bi [] =
      (f.getD bi []).filter (fun i => hasUses f i.id || hasSideEffects i) := by
    rw [h1, deleteMarked_getD]
    exact List.filter_congr key
  refine ⟨hfirst, ?_⟩
  intro i hi hs
  rw [hfirst] at hi
  have hcond := (List.mem_filter.mp hi).2
  rw [hs, Bool.or_false] at hcond
  exact hcond

/-- C5 witness: the amended theorem applied to the concrete block `dceF`
(whose instruction ids are distinct), where the surviving pure
instruction 1 indeed had a use before the pass. -/
theorem dce_exactness_witness :
    ((allInstrs dceF).map (·.id)).Nodup ∧
    ((deadCodeElimination dceF 0).1.getD 0 [] =
      (dceF.getD 0 []).filter (fun i => hasUses dceF i.id || hasSideEffects i) ∧
     ∀ i ∈ (deadCodeElimination dceF 0).1.getD 0 [],
       hasSideEffects i = false → hasUses dceF i.id = true) :=
  ⟨by decide, dce_exactness_and_pre_pass_uses dceF 0 (by decide)⟩

/-!  Constant-propagation deletion-safety lemmas. -/

lemma allStoreWriteSameConstant_first_const {first : Instr} {rest : List Instr}
    (h : allStoreWriteSameConstant (first :: rest) = some true) :
    isConstOperand (storeVal first) = true := by
  by_cases hc : isConstOperand (storeVal first) = true
  · exact hc
  · have hc' : isConstOperand (storeVal first) = false := by
      cases hx : isConstOperand (storeVal first)
      · rfl
      · exact absurd hx hc
    simp [allStoreWriteSameConstant, hc'] at h

lemma isConstOperand_ne_instr {o : Operand} (h : isConstOperand o = true)
    (w : Nat) : o ≠ .instr w := by
  cases o <;> simp [isConstOperand] at h ⊢

lemma processLoad_noUses {smap : StoreMap} {f : Func} {i : Instr}
    {R : Finset Nat} {td : List Nat} {f' : Func} {td' : List Nat}
    (hinv : noUsesAll f td)
    (h : processLoadInstruction smap f i R td = some (f', td')) :
    noUsesAll f' td' := by
  simp only [processLoadInstruction] at h
  split at h
  · exact absurd h (by simp)
  · next first rest hsame hlist =>
    simp only [Option.some.injEq, Prod.mk.injEq] at h
    obtain ⟨rfl, rfl⟩ := h
    have hconst : isConstOperand (storeVal first) = true := by
      rw [hlist] at hsame
      exact allStoreWriteSameConstant_first_const hsame
    intro x hx
    rcases List.mem_append.mp hx with hx | hx
    · exact hasUses_false_rauw (isConstOperand_ne_instr hconst) (hinv x hx)
    · rw [List.mem_singleton] at hx
      subst hx
      exact hasUses_rauw_self (isConstOperand_ne_instr hconst _)
  · exact absurd h (by simp)
  · next hsame hlist =>
    simp only [Option.some.injEq, Prod.mk.injEq] at h
    obtain ⟨rfl, rfl⟩ := h
    exact hinv

lemma propInstrLoop_noUses {smap : StoreMap} :
    ∀ (ids : List Nat) (f : Func) (R : Finset Nat) (td : List Nat),
      noUsesAll f td →
      ∀ {f' : Func} {R' : Finset Nat} {td' : List Nat},
        propInstrLoop smap ids f R td = some (f', R', td') →
        noUsesAll f' td' := by
  intro ids
  induction ids with
  | nil =>
    intro f R td hinv f' R' td' h
    simp only [propInstrLoop, Option.some.injEq, Prod.mk.injEq] at h
    obtain ⟨rfl, rfl, rfl⟩ := h
    exact hinv
  | cons v rest ih =>
    intro f R td hinv f' R' td' h
    simp only [propInstrLoop] at h
    split at h
    · exact ih f R td hinv h
    · next i _ =>
      split at h
      · exact ih f _ td hinv h
      · split at h
        · split at h
          · exact absurd h (by simp)
          · next f2 td2 heq =>
            exact ih f2 R td2 (processLoad_noUses hinv heq) h
        · exact ih f R td hinv h

lemma foldl_propBlockStep_noUses {smap : StoreMap} {ins : List (Finset Nat)} :
    ∀ (js : List Nat) (acc : Option (Func × List Nat)),
      (∀ p, acc = some p → noUsesAll p.1 p.2) →
      ∀ {p' : Func × List Nat},
        js.foldl (propBlockStep smap ins) acc = some p' →
        noUsesAll p'.1 p'.2 := by
  intro js
  induction js with
  | nil =>
    intro acc hacc p' h
    exact hacc p' h
  | cons j js ih =>
    intro acc hacc p' h
    refine ih _ ?_ h
    intro p hp
    simp only [propBlockStep] at hp
    split at hp
    · exact absurd hp (by simp)
    · next f td =>
      split at hp
      · exact absurd hp (by simp)
      · next f2 R2 td2 heq =>
        simp only [Option.some.injEq] at hp
        subst hp
        exact propInstrLoop_noUses _ f _ td (hacc (f, td) rfl) heq

lemma processBasicBlocks_noUses {smap : StoreMap} {ins : List (Finset Nat)}
    {f g : Func} {td : List Nat}
    (h : processBasicBlocks smap ins f = some (g, td)) : noUsesAll g td := by
  refine foldl_propBlockStep_noUses _ _ ?_ h
  rintro p hp
  simp only [Option.some.injEq] at hp
  subst hp
  intro x hx
  exact absurd hx (List.not_mem_nil x)

lemma constantPropagationCore_noUses {f g : Func} {td : List Nat}
    (h : constantPropagationCore f = some (g, td)) : noUsesAll g td := by
  simp only [constantPropagationCore] at h
  split at h
  · exact absurd h (by simp)
  · exact processBasicBlocks_noUses h

/-- C9: every deletion performed by `deleteMarkedInstructions` targets a
use-free instruction. The optimizer calls it from two places: dead-code
elimination, whose marked instructions have no uses at collection time
and stay use-free through the preceding deletions of the same batch, and
constant propagation, whose marked loads had all their uses redirected to
an interned constant at marking time and stay use-free through the later
rewrites and deletions; hence no deletion ever targets an instruction
with remaining uses, and the abort path (LLVM's internal destructor
assertion) is never reached by the repository's own calls. -/
theorem deletions_target_use_free :
    (∀ (f : Func) (bi k : Nat) (h : k < (dceToDelete f bi).length),
       hasUses (deleteMarkedInstructions f ((dceToDelete f bi).take k))
         ((dceToDelete f bi).get ⟨k, h⟩) = false) ∧
    (∀ (f g : Func) (td : List Nat),
       constantPropagationCore f = some (g, td) →
       ∀ (k : Nat) (h : k < td.length),
         hasUses (deleteMarkedInstructions g (td.take k)) (td.get ⟨k, h⟩) = false) := by
  constructor
  · intro f bi k h
    exact hasUses_false_deleteMarked _ f (mem_dceToDelete (List.get_mem _ k h))
  · intro f g td h k hk
    exact hasUses_false_deleteMarked _ g
      (constantPropagationCore_noUses h _ (List.get_mem _ k hk))

/-- C9 witness: the theorem applied to the concrete DCE input `dceF`
(deleting instruction 2) and to the concrete propagation input `propF`
(deleting the replaced load 2 from the pre-deletion state `propFCore`). -/
theorem deletions_target_use_free_witness :
    constantPropagationCore propF = some (propFCore, [2]) ∧
    hasUses (deleteMarkedInstructions dceF ((dceToDelete dceF 0).take 0))
      ((dceToDelete dceF 0).get ⟨0, by decide⟩) = false ∧
    hasUses (deleteMarkedInstructions propFCore (([2] : List Nat).take 0))
      (([2] : List Nat).get ⟨0, by decide⟩) = false :=
  ⟨by decide,
   deletions_target_use_free.1 dceF 0 0 (by decide),
   deletions_target_use_free.2 propF propFCore [2] (by decide) 0 (by decide)⟩

/-!  KILL/GEN lemmas for constant propagation. -/

lemma bool_eq_false {b : Bool} (h : ¬ b = true) : b = false := by
  cases b
  · rfl
  · exact absurd rfl h

lemma mem_killGenStep_snd {sid x : Nat} {gk : Finset Nat × Finset Nat}
    {t : Instr} :
    x ∈ (killGenStep sid gk t).2 ↔ x ∈ gk.2 ∨ (t.id = x ∧ x ≠ sid) := by
  simp only [killGenStep]
  by_cases h : t.id = sid
  · rw [if_neg (by simp [h])]
    constructor
    · exact Or.inl
    · rintro (hx | ⟨rfl, hne⟩)
      · exact hx
      · exact absurd h hne
  · rw [if_pos h, Finset.mem_insert]
    constructor
    · rintro (rfl | hx)
      · exact Or.inr ⟨rfl, fun hc => h (by rw [hc])⟩
      · exact Or.inl hx
    · rintro (hx | ⟨rfl, _⟩)
      · exact Or.inr hx
      · exact Or.inl rfl

lemma mem_killGenFold_snd {sid x : Nat} :
    ∀ (l : List Instr) (gk : Finset Nat × Finset Nat),
      x ∈ (l.foldl (killGenStep sid) gk).2 ↔
        x ∈ gk.2 ∨ ∃ t ∈ l, t.id = x ∧ x ≠ sid := by
  intro l
  induction l with
  | nil => intro gk; simp
  | cons t l ih =>
    intro gk
    rw [List.foldl_cons, ih, mem_killGenStep_snd]
    constructor
    · rintro ((hx | ⟨h1, h2⟩) | ⟨u, hu, h⟩)
      · exact Or.inl hx
      · exact Or.inr ⟨t, List.mem_cons_self _ _, h1, h2⟩
      · exact Or.inr ⟨u, List.mem_cons_of_mem _ hu, h⟩
    · rintro (hx | ⟨u, hu, h⟩)
      · exact Or.inl (Or.inl hx)
      · rcases List.mem_cons.mp hu with rfl | hu
        · exact Or.inl (Or.inr h)
        · exact Or.inr ⟨u, hu, h⟩

lemma mem_killGenStore_snd {f : Func} {smap : StoreMap} {sid : Nat}
    {p : Operand} {gk : Finset Nat × Finset Nat} {x : Nat} :
    x ∈ (killGenStore f smap sid p gk).2 ↔
      x ∈ gk.2 ∨ ∃ t ∈ fetchInstrs f (smapGet smap p), t.id = x ∧ x ≠ sid := by
  simp only [killGenStore]
  exact mem_killGenFold_snd _ _

lemma mem_killGenInstr_snd {f : Func} {smap : StoreMap}
    {gk : Finset Nat × Finset Nat} {i : Instr} {x : Nat} :
    x ∈ (killGenInstr f smap gk i).2 ↔
      x ∈ gk.2 ∨ (isStore i = true ∧
        ∃ t ∈ fetchInstrs f (smapGet smap (storePtr i)), t.id = x ∧ x ≠ i.id) := by
  simp only [killGenInstr]
  by_cases h : isStore i = true
  · rw [if_pos h, mem_killGenStore_snd]
    simp [h]
  · rw [if_neg h]
    simp [bool_eq_false h]

lemma mem_killGenBlockFold_snd {f : Func} {smap : StoreMap} {x : Nat} :
    ∀ (b : Block) (gk : Finset Nat × Finset Nat),
      x ∈ (b.foldl (killGenInstr f smap) gk).2 ↔
        x ∈ gk.2 ∨ ∃ s ∈ b, isStore s = true ∧
          ∃ t ∈ fetchInstrs f (smapGet smap (storePtr s)), t.id = x ∧ x ≠ s.id := by
  intro b
  induction b with
  | nil => intro gk; simp
  | cons s b ih =>
    intro gk
    rw [List.foldl_cons, ih, mem_killGenInstr_snd]
    constructor
    · rintro ((hx | ⟨hs, ht⟩) | ⟨u, hu, h⟩)
      · exact Or.inl hx
      · exact Or.inr ⟨s, List.mem_cons_self _ _, hs, ht⟩
      · exact Or.inr ⟨u, List.mem_cons_of_mem _ hu, h⟩
    · rintro (hx | ⟨u, hu, h⟩)
      · exact Or.inl (Or.inl hx)
      · rcases List.mem_cons.mp hu with rfl | hu
        · exact Or.inl (Or.inr h)
        · exact Or.inr ⟨u, hu, h⟩

/-- C4 counterexample: on `twoStoresF` — one block with two stores to the
same slot — the block's GEN set is `{2}` (the later store) and its KILL
set is `{1, 2}`: processing the first store already put the second store
into KILL, and nothing ever removes it, so `KILL[B] ∩ GEN[B] = {2} ≠ ∅`,
contradicting the claimed exclusion of GEN members from KILL. -/
theorem kill_gen_not_disjoint :
    genSet twoStoresF (buildStoreInstructionsMap twoStoresF) (twoStoresF.getD 0 []) ∩
      killSet twoStoresF (buildStoreInstructionsMap twoStoresF) (twoStoresF.getD 0 []) ≠
      ∅ := by
  decide

/-- C4 amended: `KILL[B]` contains exactly the ids of the stores `t`
anywhere in the function that write to a pointer written by some store
`s` of `B` with `t ≠ s` — each store of `B` excludes only *itself* from
the contribution made on its own behalf, not the other GEN members. When
`B` stores twice to one pointer each of the two is contributed by the
other, so the surviving GEN member also lies in KILL and
`KILL[B] ∩ GEN[B]` need not be empty (harmless for the dataflow, since
`OUT = (IN ∖ KILL) ∪ GEN` re-adds GEN afterwards). -/
theorem kill_set_characterization (f : Func) (smap : StoreMap) (b : Block)
    (x : Nat) :
    x ∈ killSet f smap b ↔
      ∃ s ∈ b, isStore s = true ∧
        ∃ t ∈ fetchInstrs f (smapGet smap (storePtr s)), t.id = x ∧ x ≠ s.id := by
  simp only [killSet, killGenBlock]
  rw [mem_killGenBlockFold_snd]
  simp

/-!  Frame-size lemmas for the code emitter. -/

lemma populate_snd (f : Func) (m : AllocMap) :
    ∀ (b : Block) (st : List (Nat × Int) × Nat),
      (populateOffsetMap f m b st).2 =
        st.2 + 4 * (b.filter (isFrameSlot f m)).length := by
  intro b
  induction b with
  | nil => intro st; simp [populateOffsetMap]
  | cons i b ih =>
    intro st
    have h1 : populateOffsetMap f m (i :: b) st
        = populateOffsetMap f m b (offsetStep f m st i) := rfl
    rw [h1, ih]
    by_cases ha : (isAlloca i || isSpilledInstruction m i.id) = true
    · by_cases hp : isParameter f i.id = true
      · have hf : isFrameSlot f m i = false := by simp [isFrameSlot, hp]
        have hs : (offsetStep f m st i).2 = st.2 := by simp [offsetStep, ha, hp]
        rw [hs]
        simp [List.filter_cons, hf]
      · have hp' : isParameter f i.id = false := bool_eq_false hp
        have hf : isFrameSlot f m i = true := by simp [isFrameSlot, ha, hp']
        have hs : (offsetStep f m st i).2 = st.2 + 4 := by
          simp [offsetStep, ha, hp']
        rw [hs]
        simp only [List.filter_cons, hf, if_pos, List.length_cons]
        omega
    · have ha' : (isAlloca i || isSpilledInstruction m i.id) = false :=
        bool_eq_false ha
      have hf : isFrameSlot f m i = false := by simp [isFrameSlot, ha']
      have hs : (offsetStep f m st i).2 = st.2 := by simp [offsetStep, ha']
      rw [hs]
      simp [List.filter_cons, hf]

lemma computeFrameFold_snd (f : Func) (m : AllocMap) :
    ∀ (bs : List Block) (st : List (Nat × Int) × Nat),
      (bs.foldl (fun st b => populateOffsetMap f m b st) st).2 =
        st.2 + 4 * (bs.flatten.filter (isFrameSlot f m)).length := by
  intro bs
  induction bs with
  | nil => intro st; simp
  | cons b bs ih =>
    intro st
    rw [List.foldl_cons, ih, populate_snd]
    simp only [List.flatten_cons, List.filter_append, List.length_append]
    omega

/-- C7 counterexample: on `paramF` — whose only alloca is the parameter's
backing slot — the allocator assigns nothing (no spills, no EBX) and the
emitter subtracts 0 from `%esp`, while the claimed formula
`4·(n_slots + n_spills) + (4 if used-callee-saved)` gives 4: the
parameter's slot lives at `+8(%ebp)` and never bumps the frame counter. -/
theorem frame_size_claim_fails_on_param_slot :
    frameSize paramF (allocateRegisterForFunction paramF).1
        (allocateRegisterForFunction paramF).2 = 0 ∧
    4 * (nSlots paramF + nSpills paramF (allocateRegisterForFunction paramF).1) +
        (if (allocateRegisterForFunction paramF).2 then 4 else 0) = 4 :=
  ⟨by decide, by decide⟩

/-- C7 amended: the frame size the emitter subtracts from `%esp` equals
4·(number of alloca-or-SPILL instructions that are *not* detected as the
parameter's backing slot) + (4 if used-callee-saved else 0); the
parameter's slot is placed at `+8(%ebp)` instead of occupying a
negative-offset frame cell. -/
theorem frame_size_formula (f : Func) (m : AllocMap) (usedEBX : Bool) :
    frameSize f m usedEBX =
      4 * ((allInstrs f).filter (isFrameSlot f m)).length +
        (if usedEBX then 4 else 0) := by
  simp only [frameSize, computeFrame, allInstrs]
  rw [computeFrameFold_snd]
  cases usedEBX <;> simp [Nat.add_comm]

/-!  Register-allocator lemmas. -/

lemma allocLookup_allocSet_self :
    ∀ (m : AllocMap) (v : Nat) (r : Reg),
      allocLookup (allocSet m v r) v = some r := by
  intro m
  induction m with
  | nil => intro v r; simp [allocSet, allocLookup, List.find?]
  | cons e m ih =>
    intro v r
    simp only [allocSet]
    by_cases h : (e.1 == v) = true
    · rw [if_pos h]
      simp [allocLookup, List.find?]
    · rw [if_neg h]
      have h2 : allocLookup (e :: allocSet m v r) v
          = allocLookup (allocSet m v r) v := by
        simp [allocLookup, List.find?, h]
      rw [h2, ih]

/-- C8 counterexample: running the allocator on `spillF` tags the `add`
(instruction 16) with SPILL, inherited through two-address coalescing
from its SPILL-tagged first operand (instruction 13), although at that
point the live ranges of the register holders 10, 11, 12 had all ended
and EBX, ECX and EDX were free — contradicting both "an instruction never
receives the SPILL tag through the coalescing step" and "a SPILL-tagged
first operand does not suppress allocation of an available free
register". -/
theorem spill_propagates_through_coalescing :
    allocLookup (allocateRegisterForFunction spillF).1 16 = some Reg.spill ∧
    (allocateRegisterForFunction spillF).1 =
      [(10, Reg.ebx), (11, Reg.ecx), (12, Reg.edx), (13, Reg.spill),
       (16, Reg.spill)] :=
  ⟨by decide, by decide⟩

/-- C8 amended: two-address coalescing fires whenever the first operand of
an arithmetic (add/sub/mul) instruction carries *any* allocation tag —
physical register or SPILL — and its live range ends at the current
instruction; the instruction then receives that same tag. In particular a
SPILL tag propagates through coalescing and pre-empts allocation of an
available free register (the membership test `count(firstOperand) > 0`
does not exclude SPILL entries). -/
theorem coalescing_propagates_operand_tag (lm : LiveMap)
    (st : AllocMap × RegPool × Bool) (idx : Nat) (curr : Instr) (v : Nat)
    (r : Reg)
    (hres : hasResultInstr curr = true)
    (harith : (curr.opcode == Opcode.add || curr.opcode == Opcode.sub ||
      curr.opcode == Opcode.mul) = true)
    (hop : curr.operands.getD 0 junkOp = .instr v)
    (halloc : allocLookup st.1 v = some r)
    (hlast : ((lmGet lm v).getD []).getLastD (idx + 1) = idx) :
    allocLookup (allocBody lm st idx curr).1 curr.id = some r := by
  have hop' : curr.operands[0]?.getD junkOp = Operand.instr v := by
    rw [← List.getD_eq_getElem?_getD]
    exact hop
  have hlast' : ((lmGet lm v).getD []).getLast?.getD (idx + 1) = idx := by
    rw [← List.getLastD_eq_getLast?]
    exact hlast
  simp [allocBody, hres, harith, hop', halloc, hlast', allocLookup_allocSet_self]

/-- C8 witness: the coalescing-step theorem applied to a concrete state in
which value 5 is SPILL-tagged, dies at index 1, and is the first operand
of the `add` numbered 6 — which then receives the SPILL tag even though
EBX is free. -/
theorem coalescing_propagates_operand_tag_witness :
    hasResultInstr ⟨6, .add, .eq, [.instr 5, .const 32 1], false⟩ = true ∧
    ((Instr.mk 6 .add .eq [.instr 5, .const 32 1] false).opcode == Opcode.add ||
      (Instr.mk 6 .add .eq [.instr 5, .const 32 1] false).opcode == Opcode.sub ||
      (Instr.mk 6 .add .eq [.instr 5, .const 32 1] false).opcode == Opcode.mul) = true ∧
    (Instr.mk 6 .add .eq [.instr 5, .const 32 1] false).operands.getD 0 junkOp =
      .instr 5 ∧
    allocLookup ([(5, Reg.spill)] : AllocMap) 5 = some Reg.spill ∧
    ((lmGet [(5, [0, 1])] 5).getD []).getLastD (1 + 1) = 1 ∧
    allocLookup (allocBody [(5, [0, 1])] ([(5, Reg.spill)], [Reg.ebx], false) 1
      ⟨6, .add, .eq, [.instr 5, .const 32 1], false⟩).1 6 = some Reg.spill :=
  ⟨by decide, by decide, by decide, by decide, by decide,
   coalescing_propagates_operand_tag [(5, [0, 1])]
     ([(5, Reg.spill)], [Reg.ebx], false) 1
     ⟨6, .add, .eq, [.instr 5, .const 32 1], false⟩ 5 Reg.spill
     (by decide) (by decide) (by decide) (by decide) (by decide)⟩

/-!  No-change-implies-identity lemmas for the optimizer driver. -/

lemma foldLoop_false {bi : Nat} :
    ∀ (ids : List Nat) (f : Func) (ch : Bool) {f' : Func},
      foldLoop bi ids f ch = (f', false) → f' = f ∧ ch = false := by
  intro ids
  induction ids with
  | nil =>
    intro f ch f' h
    simp only [foldLoop, Prod.mk.injEq] at h
    exact ⟨h.1.symm, h.2⟩
  | cons v rest ih =>
    intro f ch f' h
    simp only [foldLoop] at h
    split at h
    · exact ih f ch h
    · split at h
      · have hcontra := (ih _ true h).2
        exact absurd hcontra (by simp)
      · exact ih f ch h

lemma cseLoop_false {bi : Nat} :
    ∀ (ids : List Nat) (f : Func) (m : OpcodeMap) (ch : Bool) {f' : Func},
      cseLoop bi ids f m ch = (f', false) → f' = f ∧ ch = false := by
  intro ids
  induction ids with
  | nil =>
    intro f m ch f' h
    simp only [cseLoop, Prod.mk.injEq] at h
    exact ⟨h.1.symm, h.2⟩
  | cons v rest ih =>
    intro f m ch f' h
    simp only [cseLoop] at h
    split at h
    · exact ih f m ch h
    · split at h
      · exact ih f m ch h
      · split at h
        · have hcontra := (ih _ _ true h).2
          exact absurd hcontra (by simp)
        · exact ih f _ ch h

lemma dce_false {f : Func} {bi : Nat} {f' : Func}
    (h : deadCodeElimination f bi = (f', false)) : f' = f := by
  have h2 := congrArg Prod.snd h
  have h1 := congrArg Prod.fst h
  simp only [deadCodeElimination] at h1 h2
  have htd : dceToDelete f bi = [] := List.isEmpty_iff.mp (by simpa using h2)
  rw [htd] at h1
  exact h1.symm

lemma processLoad_extend {smap : StoreMap} {f : Func} {i : Instr}
    {R : Finset Nat} {td : List Nat} {f' : Func} {td' : List Nat}
    (h : processLoadInstruction smap f i R td = some (f', td')) :
    (f' = f ∧ td' = td) ∨ ∃ y, td' = td ++ [y] := by
  simp only [processLoadInstruction] at h
  split at h
  · exact absurd h (by simp)
  · simp only [Option.some.injEq, Prod.mk.injEq] at h
    obtain ⟨rfl, rfl⟩ := h
    exact Or.inr ⟨i.id, rfl⟩
  · exact absurd h (by simp)
  · simp only [Option.some.injEq, Prod.mk.injEq] at h
    obtain ⟨rfl, rfl⟩ := h
    exact Or.inl ⟨rfl, rfl⟩

lemma propInstrLoop_extend {smap : StoreMap} :
    ∀ (ids : List Nat) (f : Func) (R : Finset Nat) (td : List Nat)
      {f' : Func} {R' : Finset Nat} {td' : List Nat},
      propInstrLoop smap ids f R td = some (f', R', td') →
      ∃ ex, td' = td ++ ex ∧ (ex = [] → f' = f) := by
  intro ids
  induction ids with
  | nil =>
    intro f R td f' R' td' h
    simp only [propInstrLoop, Option.some.injEq, Prod.mk.injEq] at h
    obtain ⟨rfl, rfl, rfl⟩ := h
    exact ⟨[], by simp, fun _ => rfl⟩
  | cons v rest ih =>
    intro f R td f' R' td' h
    simp only [propInstrLoop] at h
    split at h
    · exact ih f R td h
    · split at h
      · exact ih f _ td h
      · split at h
        · split at h
          · exact absurd h (by simp)
          · next f2 td2 heq =>
            obtain ⟨ex, hex, himp⟩ := ih f2 R td2 h
            rcases processLoad_extend heq with ⟨rfl, rfl⟩ | ⟨y, rfl⟩
            · exact ⟨ex, hex, himp⟩
            · refine ⟨y :: ex, ?_, ?_⟩
              · rw [hex, List.append_assoc]
                rfl
              · intro hc
                exact absurd hc (by simp)
        · exact ih f R td h

lemma foldl_propBlockStep_none {smap : StoreMap} {ins : List (Finset Nat)} :
    ∀ (js : List Nat), js.foldl (propBlockStep smap ins) none = none := by
  intro js
  induction js with
  | nil => rfl
  | cons j js ih => exact ih

lemma foldl_propBlockStep_extend {smap : StoreMap} {ins : List (Finset Nat)} :
    ∀ (js : List Nat) (f : Func) (td : List Nat) {p' : Func × List Nat},
      js.foldl (propBlockStep smap ins) (some (f, td)) = some p' →
      ∃ ex, p'.2 = td ++ ex ∧ (ex = [] → p'.1 = f) := by
  intro js
  induction js with
  | nil =>
    intro f td p' h
    simp only [List.foldl_nil, Option.some.injEq] at h
    subst h
    exact ⟨[], by simp, fun _ => rfl⟩
  | cons j js ih =>
    intro f td p' h
    rw [List.foldl_cons] at h
    cases heq : propInstrLoop smap ((f.getD j []).map (·.id)) f
        (ins.getD j ∅) td with
    | none =>
      rw [show propBlockStep smap ins (some (f, td)) j = none by
        simp only [propBlockStep]; rw [heq]] at h
      rw [foldl_propBlockStep_none] at h
      exact absurd h (by simp)
    | some trip =>
      obtain ⟨f2, R2, td2⟩ := trip
      rw [show propBlockStep smap ins (some (f, td)) j = some (f2, td2) by
        simp only [propBlockStep]; rw [heq]] at h
      obtain ⟨ex2, hex2, himp2⟩ := ih f2 td2 h
      obtain ⟨ex1, hex1, himp1⟩ := propInstrLoop_extend _ f _ td heq
      refine ⟨ex1 ++ ex2, ?_, ?_⟩
      · rw [hex2, hex1, List.append_assoc]
      · intro hc
        obtain ⟨hc1, hc2⟩ := List.append_eq_nil.mp hc
        rw [himp2 hc2, himp1 hc1]

lemma constantPropagation_false {f f0 : Func}
    (h : constantPropagation f = some (f0, false)) : f0 = f := by
  cases hcore : constantPropagationCore f with
  | none =>
    rw [constantPropagation, hcore] at h
    exact absurd h (by simp)
  | some p =>
    obtain ⟨g, td⟩ := p
    rw [constantPropagation, hcore] at h
    simp only [Option.some.injEq, Prod.mk.injEq] at h
    obtain ⟨h1, h2⟩ := h
    have htd : td = [] := List.isEmpty_iff.mp (by simpa using h2)
    subst htd
    have hg : g = f := by
      simp only [constantPropagationCore, processBasicBlocks] at hcore
      split at hcore
      · exact absurd hcore (by simp)
      · obtain ⟨ex, hex, himp⟩ := foldl_propBlockStep_extend _ f [] hcore
        exact himp (by simpa using hex.symm)
    rw [← h1, hg]
    rfl

lemma blockPasses_false {f : Func} {j : Nat} {ch : Bool} {f' : Func}
    (h : blockPasses f j ch = (f', false)) : f' = f ∧ ch = false := by
  have h2 := congrArg Prod.snd h
  have h1 := congrArg Prod.fst h
  simp only [blockPasses] at h1 h2
  rw [Bool.or_eq_false_iff, Bool.or_eq_false_iff, Bool.or_eq_false_iff] at h2
  obtain ⟨⟨⟨hch, hc1⟩, hc2⟩, hc3⟩ := h2
  have e1 : (constantFolding f j).1 = f :=
    (foldLoop_false _ f false (Prod.ext rfl hc1)).1
  rw [e1] at hc2 hc3 h1
  have e2 : (commonSubexpressionElimination f j).1 = f :=
    (cseLoop_false _ f [] false (Prod.ext rfl hc2)).1
  rw [e2] at hc3 h1
  have e3 : (deadCodeElimination f j).1 = f := dce_false (Prod.ext rfl hc3)
  rw [e3] at h1
  exact ⟨h1.symm, hch⟩

lemma foldl_blockStep_false :
    ∀ (js : List Nat) (f : Func) (ch : Bool) {f' : Func},
      js.foldl blockStep (f, ch) = (f', false) → f' = f ∧ ch = false := by
  intro js
  induction js with
  | nil =>
    intro f ch f' h
    simp only [List.foldl_nil, Prod.mk.injEq] at h
    exact ⟨h.1.symm, h.2⟩
  | cons j js ih =>
    intro f ch f' h
    rw [List.foldl_cons] at h
    rcases hstep : blockPasses f j ch with ⟨f2, c2⟩
    rw [show blockStep (f, ch) j = (f2, c2) from hstep] at h
    obtain ⟨h1, h2⟩ := ih f2 c2 h
    subst h2
    obtain ⟨h3, h4⟩ := blockPasses_false hstep
    exact ⟨h1.trans h3, h4⟩

lemma optRound_false {f f' : Func} (h : optRound f = some (f', false)) :
    f' = f := by
  simp only [optRound] at h
  split at h
  · exact absurd h (by simp)
  · next f0 c0 heq =>
    simp only [Option.some.injEq] at h
    obtain ⟨h1, h2⟩ := foldl_blockStep_false _ f0 c0 h
    subst h2
    exact h1.trans (constantPropagation_false heq)

lemma optimizeFunction_fix :
    ∀ (fuel : Nat) (f g : Func), optimizeFunction fuel f = some g →
      optRound g = some (g, false) := by
  intro fuel
  induction fuel with
  | zero =>
    intro f g h
    exact absurd h (by simp [optimizeFunction])
  | succ fuel ih =>
    intro f g h
    simp only [optimizeFunction] at h
    split at h
    · exact absurd h (by simp)
    · next f' ch heq =>
      cases hch : ch with
      | true =>
        rw [hch] at h
        simp only [if_pos] at h
        exact ih f' g h
      | false =>
        rw [hch] at h heq
        simp only [Bool.false_eq_true, if_neg, Option.some.injEq,
          not_false_eq_true] at h
        subst h
        have hf : f' = f := optRound_false heq
        rw [hf] at heq ⊢
        exact heq

/-- C6: the optimizer is idempotent. Whenever `optimizeFunction`
terminates (its fixpoint loop exits within the given fuel, yielding `g`),
the final round reported no change, every pass is a deterministic
function of the module state, and a pass reporting no change leaves the
function untouched; hence re-running the optimizer on `g` with any
positive fuel exits after one no-change round and returns `g` itself —
`optimize(optimize(M)) = optimize(M)` up to structural equality. -/
theorem optimize_idempotent (fuel : Nat) (f g : Func)
    (h : optimizeFunction fuel f = some g) :
    ∀ fuel2 : Nat, 0 < fuel2 → optimizeFunction fuel2 g = some g := by
  intro fuel2 h2
  have hfix := optimizeFunction_fix fuel f g h
  cases fuel2 with
  | zero => exact absurd h2 (by simp)
  | succ fuel2 =>
    simp only [optimizeFunction, hfix]
    simp

/-- C6 witness: the theorem applied to the concrete function `trivF`,
which the optimizer maps to itself within two rounds; a second run with
fuel 1 returns it unchanged. -/
theorem optimize_idempotent_witness :
    optimizeFunction 2 trivF = some trivF ∧ 0 < 1 ∧
    optimizeFunction 1 trivF = some trivF :=
  ⟨by decide, by decide, optimize_idempotent 2 trivF trivF (by decide) 1 (by decide)⟩

end MiniC
